import Mathlib

/-!
Verification of the chat-mio repository (a mio-based single-threaded chat
server) against its natural-language specification.

The development shallowly embeds the Rust sources:
  * `src/parse.rs`    — the nom-based pipelined HTTP request parser,
  * `src/messages.rs` — the `Message`/`Chat` data model,
  * `src/chat_service.rs` — the in-memory chat store,
  * `src/router.rs`   — the method+path router,
  * `src/server.rs`   — token assignment in the mio event loop.

Strings are embedded as `List Char`; the inputs relevant to every claim are
ASCII, for which the Rust byte-oriented operations (`len`, slicing,
substring search on `&str`) agree with the character-list operations used
here.  Fallible Rust functions returning `Result<_, Box<dyn Error>>` are
embedded as `Except String _` (carrying the literal error text where a
claim depends on it) or `Option _` for the nom combinators, whose error
values are never inspected by the code (any nom `Err`, including
`Incomplete`, is treated uniformly as failure).
-/

/-! ## Generic list-of-char machinery for the nom combinators -/

/-- `p` is a prefix of `s` (propositional form used in proofs). -/
def IsPre (p s : List Char) : Prop := ∃ t, s = p ++ t

theorem isPrefixOf_iff_isPre (p s : List Char) : p.isPrefixOf s = true ↔ IsPre p s := by
  induction p generalizing s with
  | nil =>
    constructor
    · intro _; exact ⟨s, rfl⟩
    · intro _; cases s <;> rfl
  | cons a as ih =>
    cases s with
    | nil =>
      constructor
      · intro h; simp [List.isPrefixOf] at h
      · rintro ⟨t, ht⟩; simp at ht
    | cons b bs =>
      simp only [List.isPrefixOf, Bool.and_eq_true, beq_iff_eq, ih]
      constructor
      · rintro ⟨rfl, t, rfl⟩; exact ⟨t, rfl⟩
      · rintro ⟨t, ht⟩
        simp only [List.cons_append, List.cons.injEq] at ht
        obtain ⟨rfl, rfl⟩ := ht
        exact ⟨rfl, t, rfl⟩

theorem isPre_append (p r : List Char) : p.isPrefixOf (p ++ r) = true :=
  (isPrefixOf_iff_isPre p (p ++ r)).mpr ⟨r, rfl⟩

/-- Among two prefixes of the same list, one is a prefix of the other. -/
theorem isPre_total {p w s : List Char} (h₁ : IsPre p s) (h₂ : IsPre w s) :
    IsPre p w ∨ IsPre w p := by
  obtain ⟨t₁, rfl⟩ := h₁
  obtain ⟨t₂, h⟩ := h₂
  rcases le_total p.length w.length with hle | hle
  · left
    have hp : p = w.take p.length := by
      have ht : (p ++ t₁).take p.length = (w ++ t₂).take p.length := by rw [h]
      rwa [List.take_left, List.take_append_of_le_length hle] at ht
    exact ⟨w.drop p.length, by conv_lhs => rw [← List.take_append_drop p.length w, ← hp]⟩
  · right
    have hw : w = p.take w.length := by
      have ht : (w ++ t₂).take w.length = (p ++ t₁).take w.length := by rw [← h]
      rwa [List.take_left, List.take_append_of_le_length hle] at ht
    exact ⟨p.drop w.length, by conv_lhs => rw [← List.take_append_drop w.length p, ← hw]⟩

/-- nom `tag!`: succeed iff `pat` is a literal prefix, consuming it. -/
def tagP (pat s : List Char) : Option (List Char) :=
  if pat.isPrefixOf s then some (s.drop pat.length) else none

theorem tagP_append (pat r : List Char) : tagP pat (pat ++ r) = some r := by
  simp [tagP, isPre_append, List.drop_left]

theorem tagP_eq_some {pat s r : List Char} (h : tagP pat s = some r) : s = pat ++ r := by
  by_cases hp : pat.isPrefixOf s
  · obtain ⟨t, rfl⟩ := (isPrefixOf_iff_isPre _ _).mp hp
    simp [tagP, hp, List.drop_left] at h
    rw [← h]
  · simp [tagP, hp] at h

/-- nom `take_until!`: split the input at the first occurrence of `pat`,
returning the consumed span and the remaining input starting at `pat`;
fail when `pat` does not occur. -/
def takeUntil (pat : List Char) : List Char → Option (List Char × List Char)
  | [] => none
  | c :: rest =>
    if pat.isPrefixOf (c :: rest) then some ([], c :: rest)
    else match takeUntil pat rest with
      | some (pre, suf) => some (c :: pre, suf)
      | none => none

theorem takeUntil_eq_append {pat s pre suf : List Char}
    (h : takeUntil pat s = some (pre, suf)) : s = pre ++ suf := by
  induction s generalizing pre with
  | nil => simp [takeUntil] at h
  | cons c rest ih =>
    by_cases hp : pat.isPrefixOf (c :: rest)
    · simp [takeUntil, hp] at h
      obtain ⟨rfl, rfl⟩ := h
      rfl
    · simp only [takeUntil, hp, if_false] at h
      cases hr : takeUntil pat rest with
      | none => rw [hr] at h; simp at h
      | some pq =>
        obtain ⟨p, q⟩ := pq
        rw [hr] at h
        simp at h
        obtain ⟨rfl, rfl⟩ := h
        have := ih hr
        simp [this]

theorem takeUntil_length {pat s pre suf : List Char}
    (h : takeUntil pat s = some (pre, suf)) : suf.length ≤ s.length := by
  have := takeUntil_eq_append h
  subst this
  simp

/-- A hit at position 0: `takeUntil` consumes nothing. -/
theorem takeUntil_hit {pat s : List Char} (hs : s ≠ []) (hp : pat.isPrefixOf s = true) :
    takeUntil pat s = some ([], s) := by
  cases s with
  | nil => exact absurd rfl hs
  | cons c rest => simp [takeUntil, hp]

/-- If `pat` starts `b` and occurs nowhere inside `a ++ b` before `b`,
then `takeUntil` splits exactly at the boundary. -/
theorem takeUntil_append {pat a b : List Char} (hpat : pat ≠ [])
    (hpre : pat.isPrefixOf b = true)
    (hno : ∀ i, i < a.length → ¬ (pat.isPrefixOf (a.drop i ++ b) = true)) :
    takeUntil pat (a ++ b) = some (a, b) := by
  induction a with
  | nil =>
    have hb : b ≠ [] := by
      intro h
      subst h
      obtain ⟨t, ht⟩ := (isPrefixOf_iff_isPre _ _).mp hpre
      exact hpat (by simpa using ht.symm ▸ (List.append_eq_nil.mp ht.symm).1)
    simpa using takeUntil_hit hb hpre
  | cons c a' ih =>
    have h0 := hno 0 (by simp)
    simp only [List.drop_zero] at h0
    have hrec := ih (fun i hi => by
      have := hno (i + 1) (by simpa using Nat.succ_lt_succ hi)
      simpa using this)
    simp only [List.cons_append, takeUntil]
    rw [if_neg (by simpa using h0)]
    simp only [List.append_eq]
    rw [hrec]

/-- `pat` occurs nowhere strictly inside `a` (including crossings into the
following input) when its head character does not occur in `a` at all. -/
theorem no_occur_of_head_notMem {c : Char} {pat' a b : List Char} (hc : c ∉ a) :
    ∀ i, i < a.length → ¬ ((c :: pat').isPrefixOf (a.drop i ++ b) = true) := by
  intro i hi hp
  obtain ⟨t, ht⟩ := (isPrefixOf_iff_isPre _ _).mp hp
  cases hd : a.drop i with
  | nil =>
    have : a.length ≤ i := by
      have := congrArg List.length hd
      simp [List.length_drop] at this
      omega
    omega
  | cons d ds =>
    rw [hd] at ht
    simp only [List.cons_append, List.cons.injEq] at ht
    have hda : d ∈ a := by
      have : d ∈ a.drop i := by rw [hd]; exact List.mem_cons_self d ds
      exact List.mem_of_mem_drop this
    rw [ht.1] at hda
    exact hc hda

/-- Rust `char::is_whitespace` (the Unicode `White_Space` property). -/
def isRustWhitespace (c : Char) : Bool :=
  decide (c.toNat ∈ [9, 10, 11, 12, 13, 32, 0x85, 0xA0, 0x1680, 0x2000, 0x2001,
    0x2002, 0x2003, 0x2004, 0x2005, 0x2006, 0x2007, 0x2008, 0x2009, 0x200A,
    0x2028, 0x2029, 0x202F, 0x205F, 0x3000])

/-- Rust `str::trim`: strip whitespace from both ends. -/
def trimChars (s : List Char) : List Char :=
  ((s.dropWhile isRustWhitespace).reverse.dropWhile isRustWhitespace).reverse

theorem dropWhile_eq_self_of_all {p : Char → Bool} {l : List Char}
    (h : ∀ c ∈ l, p c = false) : l.dropWhile p = l := by
  cases l with
  | nil => rfl
  | cons c rest => simp [List.dropWhile, h c (List.mem_cons_self c rest)]

theorem trimChars_eq_self_of_all {l : List Char}
    (h : ∀ c ∈ l, isRustWhitespace c = false) : trimChars l = l := by
  unfold trimChars
  rw [dropWhile_eq_self_of_all h,
    dropWhile_eq_self_of_all (fun c hc => h c (List.mem_reverse.mp hc)), List.reverse_reverse]

/-- Trimming a single surrounding space from a whitespace-free list. -/
theorem trimChars_sandwich {t : List Char}
    (h : ∀ c ∈ t, isRustWhitespace c = false) :
    trimChars (' ' :: (t ++ [' '])) = t := by
  cases t with
  | nil => decide
  | cons c0 rest =>
    unfold trimChars
    have h1 : (' ' :: ((c0 :: rest) ++ [' '])).dropWhile isRustWhitespace
        = (c0 :: rest) ++ [' '] := by
      rw [List.dropWhile_cons_of_pos (by decide)]
      simp only [List.cons_append]
      exact List.dropWhile_cons_of_neg (by simp [h c0 (List.mem_cons_self c0 rest)])
    rw [h1, List.reverse_append]
    simp only [List.reverse_cons, List.reverse_nil, List.nil_append, List.singleton_append]
    rw [List.dropWhile_cons_of_pos (by decide),
      dropWhile_eq_self_of_all (fun c hc => h c (by
        simp only [List.mem_append, List.mem_reverse, List.mem_singleton] at hc
        rcases hc with hc | hc
        · exact List.mem_cons_of_mem _ hc
        · exact hc ▸ List.mem_cons_self _ _))]
    simp

/-! ## The wire parser (src/parse.rs) -/

/-- The methods the parser supports (`named!(method ..., alt!(get|post))`);
any other verb is a parse error. -/
inductive Method where
  | GET
  | POST
deriving DecidableEq, Repr

/-- `named!(method ...)`: `tag!("GET")` first, else `tag!("POST")`. -/
def methodP (s : List Char) : Option (List Char × Method) :=
  match tagP "GET".data s with
  | some r => some (r, Method.GET)
  | none =>
    match tagP "POST".data s with
    | some r => some (r, Method.POST)
    | none => none

/-- `named!(uri ...)`: `take_until!("HTTP")`, result trimmed. -/
def uriP (s : List Char) : Option (List Char × List Char) :=
  match takeUntil "HTTP".data s with
  | some (pre, suf) => some (suf, trimChars pre)
  | none => none

/-- `named!(http11 ...)`: `tag!("HTTP/1.1")`, discard to CRLF, `tag!("\r\n")`. -/
def http11P (s : List Char) : Option (List Char) :=
  match tagP "HTTP/1.1".data s with
  | some r =>
    match takeUntil ('\r' :: '\n' :: []) r with
    | some (_, suf) => tagP ('\r' :: '\n' :: []) suf
    | none => none
  | none => none

/-- `named!(start_line ...)`: method, uri, version in sequence. -/
def start_line (s : List Char) : Option (List Char × (Method × List Char)) :=
  match methodP s with
  | some (r1, m) =>
    match uriP r1 with
    | some (r2, u) =>
      match http11P r2 with
      | some r3 => some (r3, (m, u))
      | none => none
    | none => none
  | none => none

/-- `named!(header ...)`: name up to the first `:`, value up to CRLF,
both trimmed. -/
def header (s : List Char) : Option (List Char × (List Char × List Char)) :=
  match takeUntil (':' :: []) s with
  | some (name, suf) =>
    match tagP (':' :: []) suf with
    | some r1 =>
      match takeUntil ('\r' :: '\n' :: []) r1 with
      | some (value, suf2) =>
        match tagP ('\r' :: '\n' :: []) suf2 with
        | some r2 => some (r2, (trimChars name, trimChars value))
        | none => none
      | none => none
    | none => none
  | none => none

/-- `named!(end_headers ...)`: `tag!("\r\n")`. -/
def end_headers (s : List Char) : Option (List Char) := tagP ('\r' :: '\n' :: []) s

/-- Rust `str::parse::<usize>`: optional leading `+`, one or more ASCII
digits, value below `2^64` (64-bit `usize`). -/
def parseUsize (s : List Char) : Option Nat :=
  let digits := match s with
    | '+' :: rest => rest
    | _ => s
  if digits ≠ [] ∧ digits.all Char.isDigit then
    let v := digits.foldl (fun acc c => acc * 10 + (c.toNat - 48)) 0
    if v < 2 ^ 64 then some v else none
  else none

/-- A decoded request as assembled by the `http::Request` builder: the
insertion-ordered header pairs and the borrowed body slice. -/
structure Request where
  method : Method
  uri : List Char
  headers : List (List Char × List Char)
  body : List Char
deriving DecidableEq, Repr

theorem header_consumes {s r : List Char} {nv : List Char × List Char}
    (h : header s = some (r, nv)) : r.length + 3 ≤ s.length := by
  unfold header at h
  cases h1 : takeUntil (':' :: []) s with
  | none => simp only [h1] at h; exact Option.noConfusion h
  | some ps =>
    obtain ⟨name, suf⟩ := ps
    simp only [h1] at h
    cases h2 : tagP (':' :: []) suf with
    | none => simp only [h2] at h; exact Option.noConfusion h
    | some r1 =>
      simp only [h2] at h
      cases h3 : takeUntil ('\r' :: '\n' :: []) r1 with
      | none => simp only [h3] at h; exact Option.noConfusion h
      | some ps2 =>
        obtain ⟨value, suf2⟩ := ps2
        simp only [h3] at h
        cases h4 : tagP ('\r' :: '\n' :: []) suf2 with
        | none => simp only [h4] at h; exact Option.noConfusion h
        | some r2 =>
          simp only [h4, Option.some.injEq, Prod.mk.injEq] at h
          obtain ⟨rfl, -⟩ := h
          have e1 := takeUntil_eq_append h1
          have e2 := tagP_eq_some h2
          have e3 := takeUntil_eq_append h3
          have e4 := tagP_eq_some h4
          subst e1 e2 e3 e4
          simp
          omega

/-- The header-scanning loop of `parse_http_request`, with explicit fuel.
Each iteration consumes at least three characters (`header_consumes`), so
fuel `temp.length` suffices; the fuel-exhaustion branch is unreachable for
the initial call and mirrors the loop-exit state. -/
def parseHeadersGo (fuel : Nat) (temp : List Char) (len : Nat)
    (hdrs : List (List Char × List Char)) :
    List Char × Nat × List (List Char × List Char) :=
  match fuel with
  | 0 => (temp, len, hdrs)
  | fuel' + 1 =>
    match header temp with
    | none => (temp, len, hdrs)
    | some (remainder, (n, v)) =>
      let len' := if trimChars n = "Content-Length".data then
        (match parseUsize v with
          | some l => l
          | none => len)
        else len
      let hdrs' := hdrs ++ [(n, v)]
      match end_headers remainder with
      | some r2 => (r2, len', hdrs')
      | none => parseHeadersGo fuel' remainder len' hdrs'

/--
`parse_http_request`: parse a single http request from a buffer, returning
the remainder of the buffer once Content-Length is reached.

The `http::Request` builder is modelled as directly assembling a `Request`;
the builder's own validation (header-name tokens, uri syntax) never fires on
the inputs of any claim below, whose well-formedness conditions keep names
and uris inside the character sets the `http` crate accepts.  The Rust
start-line error appends the nom error's `Debug` form to the message
"unable to parse http start line"; the embedding keeps the stable prefix
(no claim depends on that error's text).
-/
def parse_http_request (buffer : List Char) : Except String (List Char × Request) :=
  match start_line buffer with
  | none => .error "unable to parse http start line"
  | some (r0, (m, u)) =>
    match parseHeadersGo r0.length r0 0 [] with
    | (temp, len, hdrs) =>
      if temp.length ≥ len then
        .ok (temp.drop len, { method := m, uri := u, headers := hdrs, body := temp.take len })
      else
        .error "incomplete request"

theorem parseHeadersGo_length (fuel : Nat) :
    ∀ (temp : List Char) (len : Nat) (hdrs : List (List Char × List Char)),
      (parseHeadersGo fuel temp len hdrs).1.length ≤ temp.length := by
  induction fuel with
  | zero => intro temp len hdrs; simp [parseHeadersGo]
  | succ fuel' ih =>
    intro temp len hdrs
    unfold parseHeadersGo
    cases hh : header temp with
    | none => simp
    | some rnv =>
      obtain ⟨remainder, n, v⟩ := rnv
      have hcons := header_consumes hh
      simp only
      cases he : end_headers remainder with
      | some r2 =>
        have he2 := congrArg List.length (tagP_eq_some he)
        simp only [List.length_append, List.length_cons, List.length_nil] at he2
        simpa using by omega
      | none =>
        refine Nat.le_trans (ih remainder _ _) (by omega)

theorem start_line_consumes {s r : List Char} {mu : Method × List Char}
    (h : start_line s = some (r, mu)) : r.length < s.length := by
  unfold start_line at h
  cases h1 : methodP s with
  | none => simp only [h1] at h; exact Option.noConfusion h
  | some rm =>
    obtain ⟨r1, m⟩ := rm
    simp only [h1] at h
    cases h2 : uriP r1 with
    | none => simp only [h2] at h; exact Option.noConfusion h
    | some ru =>
      obtain ⟨r2, u⟩ := ru
      simp only [h2] at h
      cases h3 : http11P r2 with
      | none => simp only [h3] at h; exact Option.noConfusion h
      | some r3 =>
        simp only [h3, Option.some.injEq, Prod.mk.injEq] at h
        obtain ⟨rfl, -⟩ := h
        have e1 : r1.length + 3 ≤ s.length := by
          unfold methodP at h1
          cases hg : tagP "GET".data s with
          | some rg =>
            simp only [hg, Option.some.injEq, Prod.mk.injEq] at h1
            obtain ⟨rfl, -⟩ := h1
            have hl := congrArg List.length (tagP_eq_some hg)
            have hG : ("GET".data).length = 3 := rfl
            rw [List.length_append, hG] at hl
            omega
          | none =>
            simp only [hg] at h1
            cases hp : tagP "POST".data s with
            | none => simp only [hp] at h1; exact Option.noConfusion h1
            | some rp =>
              simp only [hp, Option.some.injEq, Prod.mk.injEq] at h1
              obtain ⟨rfl, -⟩ := h1
              have hl := congrArg List.length (tagP_eq_some hp)
              have hP : ("POST".data).length = 4 := rfl
              rw [List.length_append, hP] at hl
              omega
        have e2 : r2.length ≤ r1.length := by
          unfold uriP at h2
          cases hu : takeUntil "HTTP".data r1 with
          | none => simp only [hu] at h2; exact Option.noConfusion h2
          | some ps =>
            obtain ⟨pre, suf⟩ := ps
            simp only [hu, Option.some.injEq, Prod.mk.injEq] at h2
            obtain ⟨rfl, -⟩ := h2
            exact takeUntil_length hu
        have e3 : r3.length ≤ r2.length := by
          unfold http11P at h3
          cases ht : tagP "HTTP/1.1".data r2 with
          | none => simp only [ht] at h3; exact Option.noConfusion h3
          | some rr =>
            simp only [ht] at h3
            cases hu : takeUntil ('\r' :: '\n' :: []) rr with
            | none => simp only [hu] at h3; exact Option.noConfusion h3
            | some ps =>
              obtain ⟨pre, suf⟩ := ps
              simp only [hu] at h3
              have l1 := congrArg List.length (tagP_eq_some ht)
              have l2 := congrArg List.length (takeUntil_eq_append hu)
              have l3 := congrArg List.length (tagP_eq_some h3)
              have hH : ("HTTP/1.1".data).length = 8 := rfl
              rw [List.length_append, hH] at l1
              rw [List.length_append] at l2
              rw [List.length_append] at l3
              simp only [List.length_cons, List.length_nil] at l3
              omega
        omega

theorem parse_http_request_consumes {s r : List Char} {req : Request}
    (h : parse_http_request s = .ok (r, req)) : r.length < s.length := by
  unfold parse_http_request at h
  cases h1 : start_line s with
  | none => simp only [h1] at h; exact Except.noConfusion h
  | some rm =>
    obtain ⟨r0, m, u⟩ := rm
    simp only [h1] at h
    have hsl := start_line_consumes h1
    have hlen := parseHeadersGo_length r0.length r0 0 []
    revert h hlen
    cases hg : parseHeadersGo r0.length r0 0 [] with
    | mk temp rest2 =>
      obtain ⟨len, hdrs⟩ := rest2
      intro hA hB
      simp only at hB
      by_cases hge : temp.length ≥ len
      · rw [if_pos hge] at hA
        simp only [Except.ok.injEq, Prod.mk.injEq] at hA
        obtain ⟨rfl, -⟩ := hA
        have : (temp.drop len).length ≤ temp.length := by simp
        omega
      · rw [if_neg hge] at hA
        exact Except.noConfusion hA

theorem header_nil : header [] = none := rfl

/-- Any fuel of at least `temp.length` yields the same header-loop result:
each iteration consumes at least three characters, so the fuel-exhaustion
branch of `parseHeadersGo` is unreachable and the embedding agrees with
the unbounded Rust loop on every input. -/
theorem parseHeadersGo_fuel (f1 : Nat) :
    ∀ (f2 : Nat) (temp : List Char) (len : Nat)
      (hdrs : List (List Char × List Char)),
      temp.length ≤ f1 → temp.length ≤ f2 →
      parseHeadersGo f1 temp len hdrs = parseHeadersGo f2 temp len hdrs := by
  induction f1 with
  | zero =>
    intro f2 temp len hdrs h1 _
    have : temp = [] := by
      cases temp with
      | nil => rfl
      | cons c r => simp at h1
    subst this
    cases f2 with
    | zero => rfl
    | succ g =>
      show (([], len, hdrs) : List Char × Nat × List (List Char × List Char))
        = parseHeadersGo (g + 1) [] len hdrs
      unfold parseHeadersGo
      rw [header_nil]
  | succ f1' ih =>
    intro f2 temp len hdrs h1 h2
    cases htemp : temp with
    | nil =>
      cases f2 with
      | zero => unfold parseHeadersGo; rw [header_nil]
      | succ g => unfold parseHeadersGo; rw [header_nil]
    | cons c r =>
      rw [← htemp]
      have hlen : 1 ≤ temp.length := by rw [htemp]; simp
      cases f2 with
      | zero => omega
      | succ g =>
        unfold parseHeadersGo
        cases hh : header temp with
        | none => rfl
        | some rnv =>
          obtain ⟨remainder, n, v⟩ := rnv
          have hcons := header_consumes hh
          simp only
          cases end_headers remainder with
          | some r2 => rfl
          | none => exact ih g remainder _ _ (by omega) (by omega)

/-- The `while !temp_buffer.is_empty()` loop of `parse_buffer`, with fuel.
Each successful `parse_http_request` consumes at least one character
(`parse_http_request_consumes`), so fuel `buffer.length` suffices and the
fuel-exhaustion branch is unreachable from `parse_buffer`. -/
def parseBufferGo (fuel : Nat) (temp : List Char) (acc : List Request) :
    Except String (List Request) :=
  match fuel with
  | 0 => .ok acc.reverse
  | fuel' + 1 =>
    if temp.isEmpty then .ok acc.reverse
    else
      match parse_http_request temp with
      | .error e => .error e
      | .ok (remaining, request) => parseBufferGo fuel' remaining (request :: acc)

/-- `parse_buffer`: parse a buffer of (potentially) multiple pipelined
http requests.  (`std::str::from_utf8` is the identity here: inputs are
already character lists.) -/
def parse_buffer (buffer : List Char) : Except String (List Request) :=
  parseBufferGo (buffer.length + 1) buffer []

/-- Any fuel of at least `buffer.length + 1` yields the same
`parse_buffer` loop result: each successful `parse_http_request` consumes
at least one character, so the fuel-exhaustion branch of `parseBufferGo`
is unreachable and the embedding agrees with the unbounded Rust loop. -/
theorem parseBufferGo_fuel (f1 : Nat) :
    ∀ (f2 : Nat) (temp : List Char) (acc : List Request),
      temp.length + 1 ≤ f1 → temp.length + 1 ≤ f2 →
      parseBufferGo f1 temp acc = parseBufferGo f2 temp acc := by
  induction f1 with
  | zero => intro f2 temp acc h1 _; omega
  | succ f1' ih =>
    intro f2 temp acc h1 h2
    cases f2 with
    | zero => omega
    | succ g =>
      unfold parseBufferGo
      by_cases he : temp.isEmpty
      · rw [if_pos he, if_pos he]
      · rw [if_neg he, if_neg he]
        cases hp : parse_http_request temp with
        | error e => rfl
        | ok pair =>
          obtain ⟨remaining, request⟩ := pair
          have := parse_http_request_consumes hp
          exact ih g remaining (request :: acc) (by omega) (by omega)

/-! ## Well-formed messages and their serialization -/

/-- Substring occurrence (used to state that a request target does not
contain the literal `HTTP`, which would confuse `take_until!("HTTP")`). -/
def hasSubstr (pat : List Char) : List Char → Bool
  | [] => pat.isEmpty
  | c :: rest => pat.isPrefixOf (c :: rest) || hasSubstr pat rest

theorem hasSubstr_of_drop {pat : List Char} (j : Nat) (t : List Char)
    (h : pat.isPrefixOf (t.drop j) = true) : hasSubstr pat t = true := by
  induction j generalizing t with
  | zero =>
    cases t with
    | nil => cases pat <;> simp_all [List.isPrefixOf, hasSubstr]
    | cons c rest => simp_all [hasSubstr]
  | succ j' ih =>
    cases t with
    | nil => cases pat <;> simp_all [List.isPrefixOf, hasSubstr]
    | cons c rest =>
      simp only [List.drop_succ_cons] at h
      simp [hasSubstr, ih rest h]

theorem isPre_cons_head {c d : Char} {p s : List Char} (h : IsPre (c :: p) (d :: s)) :
    c = d ∧ IsPre p s := by
  obtain ⟨u, hu⟩ := h
  simp only [List.cons_append, List.cons.injEq] at hu
  exact ⟨hu.1.symm, ⟨u, hu.2⟩⟩

theorem tagP_ne_head {c d : Char} {p s : List Char} (h : c ≠ d) :
    tagP (c :: p) (d :: s) = none := by
  unfold tagP
  rw [if_neg]
  intro hp
  obtain ⟨hcd, -⟩ := isPre_cons_head ((isPrefixOf_iff_isPre _ _).mp hp)
  exact h hcd

/-- `take_until!("HTTP")` finds no occurrence starting inside
`SP target SP` when the target does not contain `HTTP`:
an occurrence fully inside would lie inside the target, and an occurrence
crossing the trailing space would need a space inside `HTTP`. -/
theorem uri_hno {t b : List Char} (ht : hasSubstr "HTTP".data t = false) :
    ∀ i, i < (' ' :: (t ++ [' '])).length →
      ¬ ("HTTP".data.isPrefixOf ((' ' :: (t ++ [' '])).drop i ++ b) = true) := by
  intro i hi hp
  have hpre := (isPrefixOf_iff_isPre _ _).mp hp
  simp at hi
  cases i with
  | zero =>
    obtain ⟨he, -⟩ := isPre_cons_head (by simpa using hpre)
    exact absurd he (by decide)
  | succ j =>
    simp only [List.drop_succ_cons] at hpre
    have hdrop : (t ++ [' ']).drop j = t.drop j ++ [' '] :=
      List.drop_append_of_le_length (by omega)
    rw [hdrop, List.append_assoc] at hpre
    have htriv : IsPre (t.drop j) (t.drop j ++ ([' '] ++ b)) := ⟨_, rfl⟩
    rcases isPre_total hpre htriv with hA | hB
    · exact absurd (hasSubstr_of_drop j t ((isPrefixOf_iff_isPre _ _).mpr hA))
        (by simp [ht])
    · obtain ⟨ext, hext⟩ := hB
      obtain ⟨u, hu⟩ := hpre
      rw [hext, List.append_assoc] at hu
      have hcancel : [' '] ++ b = ext ++ u := List.append_cancel_left hu
      cases ext with
      | nil =>
        rw [List.append_nil] at hext
        have hocc : "HTTP".data.isPrefixOf (t.drop j) = true :=
          (isPrefixOf_iff_isPre _ _).mpr ⟨[], by rw [← hext]; simp⟩
        exact absurd (hasSubstr_of_drop j t hocc) (by simp [ht])
      | cons e ext' =>
        have he : e = ' ' := by
          simp only [List.singleton_append, List.cons_append, List.cons.injEq] at hcancel
          exact hcancel.1.symm
        have hmem : e ∈ (['H', 'T', 'T', 'P'] : List Char) := by
          rw [hext]
          exact List.mem_append_right _ (List.mem_cons_self e ext')
        rw [he] at hmem
        exact absurd hmem (by decide)

/-- RFC 7230 token characters: the header names `http::HeaderName`
accepts (alphanumerics and `! # $ % & ' * + - . ^ _ ` | ~`). -/
def isTokenChar (c : Char) : Bool :=
  decide ((48 ≤ c.toNat ∧ c.toNat ≤ 57) ∨ (65 ≤ c.toNat ∧ c.toNat ≤ 90) ∨
    (97 ≤ c.toNat ∧ c.toNat ≤ 122) ∨
    c.toNat ∈ [33, 35, 36, 37, 38, 39, 42, 43, 45, 46, 94, 95, 96, 124, 126])

/-- Header-value characters `http::HeaderValue::from_str` accepts,
restricted to ASCII: horizontal tab or a visible/space ASCII byte. -/
def isHeaderValueChar (c : Char) : Bool :=
  decide (c.toNat = 9 ∨ (32 ≤ c.toNat ∧ c.toNat ≤ 126))

/-- Characters of an origin-form request target that `http::Uri` accepts
(RFC 3986 `pchar` plus `/` and `?`). -/
def isUriChar (c : Char) : Bool :=
  decide ((48 ≤ c.toNat ∧ c.toNat ≤ 57) ∨ (65 ≤ c.toNat ∧ c.toNat ≤ 90) ∨
    (97 ≤ c.toNat ∧ c.toNat ≤ 122) ∨
    c.toNat ∈ [33, 36, 37, 38, 39, 40, 41, 42, 43, 44, 45, 46, 47, 58, 59,
      61, 63, 64, 95, 126])

theorem token_not_ws {c : Char} (h : isTokenChar c = true) :
    isRustWhitespace c = false := by
  simp only [isTokenChar, decide_eq_true_eq, List.mem_cons, List.not_mem_nil,
    or_false] at h
  simp only [isRustWhitespace, List.mem_cons, List.not_mem_nil,
    decide_eq_false_iff_not, or_false]
  omega

theorem uri_not_ws {c : Char} (h : isUriChar c = true) :
    isRustWhitespace c = false := by
  simp only [isUriChar, decide_eq_true_eq, List.mem_cons, List.not_mem_nil,
    or_false] at h
  simp only [isRustWhitespace, List.mem_cons, List.not_mem_nil,
    decide_eq_false_iff_not, or_false]
  omega

theorem notMem_of_all_token {x : Char} {l : List Char} (hx : isTokenChar x = false)
    (h : ∀ c ∈ l, isTokenChar c = true) : x ∉ l := fun hm => by
  rw [h x hm] at hx
  exact Bool.noConfusion hx

theorem notMem_of_all_value {x : Char} {l : List Char} (hx : isHeaderValueChar x = false)
    (h : ∀ c ∈ l, isHeaderValueChar c = true) : x ∉ l := fun hm => by
  rw [h x hm] at hx
  exact Bool.noConfusion hx

/-- A source-side wire message: the data serialized into
`METHOD SP TARGET SP HTTP/1.1 CRLF (NAME : VALUE CRLF)* CRLF BODY`. -/
structure Msg where
  method : Method
  target : List Char
  headers : List (List Char × List Char)
  body : List Char

def methodChars : Method → List Char
  | Method.GET => "GET".data
  | Method.POST => "POST".data

def serializeHeader (h : List Char × List Char) : List Char :=
  h.1 ++ ':' :: (h.2 ++ '\r' :: '\n' :: [])

def serializeHeaders (hs : List (List Char × List Char)) : List Char :=
  (hs.map serializeHeader).flatten

/-- Start line, header block and blank-line terminator (no body). -/
def serializeHead (m : Msg) : List Char :=
  methodChars m.method ++ ' ' :: (m.target ++ ' ' :: ("HTTP/1.1".data ++
    '\r' :: '\n' :: (serializeHeaders m.headers ++ '\r' :: '\n' :: [])))

def serializeMsg (m : Msg) : List Char := serializeHead m ++ m.body

/-- The body length the header-scanning loop of `parse_http_request`
computes: the last header named exactly `Content-Length` (case-sensitive)
whose value parses as a `usize` sets it; otherwise it stays, starting at 0. -/
def contentLength (hs : List (List Char × List Char)) : Nat :=
  hs.foldl (fun len h =>
    if trimChars h.1 = "Content-Length".data then
      (match parseUsize h.2 with
        | some l => l
        | none => len)
    else len) 0

/-- A well-formed header line: a nonempty token name (as `http::HeaderName`
requires) and a value of valid characters that is already trimmed. -/
def WFHeader (h : List Char × List Char) : Prop :=
  h.1 ≠ [] ∧ (∀ c ∈ h.1, isTokenChar c = true) ∧
    (∀ c ∈ h.2, isHeaderValueChar c = true) ∧ trimChars h.2 = h.2

/-- A well-formed start line and header block: an origin-form target in the
characters `http::Uri` accepts that does not contain the literal `HTTP`,
and at least one well-formed header line. -/
def WFHead (m : Msg) : Prop :=
  m.target ≠ [] ∧ m.target.head? = some '/' ∧
    (∀ c ∈ m.target, isUriChar c = true) ∧ hasSubstr "HTTP".data m.target = false ∧
    m.headers ≠ [] ∧ (∀ h ∈ m.headers, WFHeader h)

/-- A well-formed message: well-formed head, an ASCII body of exactly the
declared `Content-Length`. -/
def WFMsg (m : Msg) : Prop :=
  WFHead m ∧ m.body.length = contentLength m.headers ∧
    (∀ c ∈ m.body, c.toNat ≤ 127)

instance : DecidablePred WFHeader := fun h => by
  unfold WFHeader; infer_instance

instance : DecidablePred WFHead := fun m => by
  unfold WFHead; infer_instance

instance : DecidablePred WFMsg := fun m => by
  unfold WFMsg; infer_instance

theorem methodP_rt (m : Method) (rest : List Char) :
    methodP (methodChars m ++ rest) = some (rest, m) := by
  cases m with
  | GET =>
    show methodP ("GET".data ++ rest) = some (rest, Method.GET)
    unfold methodP
    rw [tagP_append]
  | POST =>
    show methodP ("POST".data ++ rest) = some (rest, Method.POST)
    unfold methodP
    have hg : tagP "GET".data ("POST".data ++ rest) = none := tagP_ne_head (by decide)
    rw [hg, tagP_append]

theorem startLine_rt (m : Method) (t z : List Char)
    (h1 : hasSubstr "HTTP".data t = false)
    (h3 : ∀ c ∈ t, isRustWhitespace c = false) :
    start_line (methodChars m ++ ' ' :: (t ++ ' ' :: ("HTTP/1.1".data ++ '\r' :: '\n' :: z)))
      = some (z, (m, t)) := by
  unfold start_line
  have hsplit : ("HTTP/1.1".data : List Char) = "HTTP".data ++ "/1.1".data := by decide
  have hu : uriP (' ' :: (t ++ ' ' :: ("HTTP/1.1".data ++ '\r' :: '\n' :: z)))
      = some ("HTTP/1.1".data ++ '\r' :: '\n' :: z, t) := by
    unfold uriP
    have ha : (' ' :: (t ++ ' ' :: ("HTTP/1.1".data ++ '\r' :: '\n' :: z)))
        = (' ' :: (t ++ [' '])) ++ ("HTTP/1.1".data ++ '\r' :: '\n' :: z) := by
      simp
    have hpre : ("HTTP".data).isPrefixOf ("HTTP/1.1".data ++ '\r' :: '\n' :: z) = true := by
      rw [hsplit, List.append_assoc]
      exact isPre_append _ _
    rw [ha]
    simp only [takeUntil_append (by decide) hpre (uri_hno h1)]
    rw [trimChars_sandwich h3]
  have hh : http11P ("HTTP/1.1".data ++ '\r' :: '\n' :: z) = some z := by
    unfold http11P
    have hhit : takeUntil ('\r' :: '\n' :: []) ('\r' :: '\n' :: z)
        = some ([], '\r' :: '\n' :: z) :=
      takeUntil_hit (by simp) (isPre_append ('\r' :: '\n' :: []) z)
    simp only [tagP_append, hhit]
    exact tagP_append ('\r' :: '\n' :: []) z
  simp only [methodP_rt, hu, hh]

theorem header_rt (n v z : List Char) (hn : ':' ∉ n) (hv : '\r' ∉ v) :
    header (n ++ ':' :: (v ++ '\r' :: '\n' :: z))
      = some (z, (trimChars n, trimChars v)) := by
  unfold header
  have e1 : n ++ ':' :: (v ++ '\r' :: '\n' :: z)
      = n ++ ((':' :: []) ++ (v ++ '\r' :: '\n' :: z)) := by simp
  have t1 : takeUntil (':' :: []) (n ++ ':' :: (v ++ '\r' :: '\n' :: z))
      = some (n, (':' :: []) ++ (v ++ '\r' :: '\n' :: z)) := by
    rw [e1]
    exact takeUntil_append (by decide) (isPre_append _ _)
      (no_occur_of_head_notMem hn)
  have e2 : v ++ '\r' :: '\n' :: z = v ++ (('\r' :: '\n' :: []) ++ z) := by simp
  have t2 : takeUntil ('\r' :: '\n' :: []) (v ++ '\r' :: '\n' :: z)
      = some (v, ('\r' :: '\n' :: []) ++ z) := by
    rw [e2]
    exact takeUntil_append (by decide) (isPre_append _ _)
      (no_occur_of_head_notMem hv)
  simp only [t1, tagP_append, t2]

theorem parseHeadersGo_rt (hs : List (List Char × List Char)) :
    ∀ (fuel : Nat) (tail : List Char) (len : Nat)
      (acc : List (List Char × List Char)),
      hs ≠ [] → (∀ h ∈ hs, WFHeader h) → hs.length ≤ fuel →
      parseHeadersGo fuel (serializeHeaders hs ++ '\r' :: '\n' :: tail) len acc
        = (tail,
           hs.foldl (fun l h =>
             if trimChars h.1 = "Content-Length".data then
               (match parseUsize h.2 with
                 | some x => x
                 | none => l)
             else l) len,
           acc ++ hs) := by
  induction hs with
  | nil => intro _ _ _ _ hne; exact absurd rfl hne
  | cons nv hs' ih =>
    obtain ⟨n, v⟩ := nv
    intro fuel tail len acc _ hwf hfuel
    obtain ⟨hn1, hn2, hv1, hv2⟩ := hwf (n, v) (List.mem_cons_self _ _)
    cases fuel with
    | zero => simp at hfuel
    | succ f =>
      have hcolon : ':' ∉ n := notMem_of_all_token (by decide) hn2
      have hcr : '\r' ∉ v := notMem_of_all_value (by decide) hv1
      have htrn : trimChars n = n :=
        trimChars_eq_self_of_all (fun c hc => token_not_ws (hn2 c hc))
      have hinput : serializeHeaders ((n, v) :: hs') ++ '\r' :: '\n' :: tail
          = n ++ ':' :: (v ++ '\r' :: '\n' ::
              (serializeHeaders hs' ++ '\r' :: '\n' :: tail)) := by
        unfold serializeHeaders serializeHeader
        simp
      rw [hinput]
      unfold parseHeadersGo
      simp only [header_rt n v _ hcolon hcr, htrn, hv2]
      cases hs' with
      | nil =>
        have hend : end_headers (serializeHeaders [] ++ '\r' :: '\n' :: tail)
            = some tail := by
          unfold serializeHeaders end_headers
          simp only [List.map_nil, List.flatten_nil, List.nil_append]
          exact tagP_append ('\r' :: '\n' :: []) tail
        simp only [hend, List.foldl_cons, List.foldl_nil]
        rw [htrn]
      | cons nv2 hs'' =>
        obtain ⟨n2, v2⟩ := nv2
        obtain ⟨hn21, hn22, -, -⟩ := hwf (n2, v2) (List.mem_cons_of_mem _ (List.mem_cons_self _ _))
        obtain ⟨c2, n2', hn2e⟩ : ∃ c d, n2 = c :: d := by
          cases n2 with
          | nil => exact absurd rfl hn21
          | cons x xs => exact ⟨x, xs, rfl⟩
        have hc2 : isTokenChar c2 = true := by
          apply hn22
          rw [hn2e]
          exact List.mem_cons_self _ _
        have hinput2 : serializeHeaders ((n2, v2) :: hs'') ++ '\r' :: '\n' :: tail
            = c2 :: (n2' ++ ':' :: (v2 ++ '\r' :: '\n' ::
                (serializeHeaders hs'' ++ '\r' :: '\n' :: tail))) := by
          unfold serializeHeaders serializeHeader
          rw [hn2e]
          simp
        have hend : end_headers (serializeHeaders ((n2, v2) :: hs'') ++ '\r' :: '\n' :: tail)
            = none := by
          unfold end_headers
          rw [hinput2]
          refine tagP_ne_head ?_
          intro hc
          rw [← hc] at hc2
          exact absurd hc2 (by decide)
        simp only [hend]
        rw [ih f tail _ (acc ++ [(n, v)]) (by simp)
          (fun h hm => hwf h (List.mem_cons_of_mem _ hm)) (by simp at hfuel ⊢; omega)]
        simp [List.foldl_cons, htrn]

/-- The decoded request a well-formed message denotes. -/
def reqOf (m : Msg) : Request :=
  { method := m.method, uri := m.target, headers := m.headers, body := m.body }

theorem serializeHeaders_length_ge (hs : List (List Char × List Char)) :
    hs.length ≤ (serializeHeaders hs).length := by
  induction hs with
  | nil => simp [serializeHeaders]
  | cons h t ih =>
    have : serializeHeaders (h :: t) = serializeHeader h ++ serializeHeaders t := by
      unfold serializeHeaders
      simp
    rw [this]
    simp only [List.length_cons, List.length_append]
    unfold serializeHeader
    simp
    omega

/-- `parse_http_request` on a well-formed head followed by arbitrary bytes:
the start line and headers round-trip, and body framing succeeds or fails
on the declared `Content-Length` against the remaining bytes. -/
theorem parse_http_request_head (m : Msg) (w : List Char) (h : WFHead m) :
    parse_http_request (serializeHead m ++ w)
      = if contentLength m.headers ≤ w.length
        then .ok (w.drop (contentLength m.headers),
          { method := m.method, uri := m.target, headers := m.headers,
            body := w.take (contentLength m.headers) })
        else .error "incomplete request" := by
  obtain ⟨ht1, ht2, ht3, ht4, hh5, hh6⟩ := h
  have hinput : serializeHead m ++ w
      = methodChars m.method ++ ' ' :: (m.target ++ ' ' :: ("HTTP/1.1".data ++
          '\r' :: '\n' :: (serializeHeaders m.headers ++ '\r' :: '\n' :: w))) := by
    unfold serializeHead
    simp
  unfold parse_http_request
  rw [hinput]
  rw [startLine_rt m.method m.target _ ht4 (fun c hc => uri_not_ws (ht3 c hc))]
  have hfuel : m.headers.length ≤ (serializeHeaders m.headers ++ '\r' :: '\n' :: w).length := by
    have := serializeHeaders_length_ge m.headers
    simp
    omega
  simp only [parseHeadersGo_rt m.headers _ w 0 [] hh5 hh6 hfuel]
  rfl

/-- A well-formed message followed by arbitrary further input parses to
exactly its decoded request, consuming exactly its serialization. -/
theorem parse_http_request_rt (m : Msg) (rest : List Char) (h : WFMsg m) :
    parse_http_request (serializeMsg m ++ rest) = .ok (rest, reqOf m) := by
  obtain ⟨hhead, hlen, -⟩ := h
  have : serializeMsg m ++ rest = serializeHead m ++ (m.body ++ rest) := by
    unfold serializeMsg
    simp
  rw [this, parse_http_request_head m (m.body ++ rest) hhead]
  rw [if_pos (by simp [← hlen])]
  rw [← hlen, List.drop_left, List.take_left]
  rfl

theorem serializeMsg_cons (m : Msg) : ∃ c l, serializeMsg m = c :: l := by
  cases hm : m.method with
  | GET =>
    refine ⟨'G', "ET".data ++ ' ' :: (m.target ++ ' ' :: ("HTTP/1.1".data ++
      '\r' :: '\n' :: (serializeHeaders m.headers ++ '\r' :: '\n' :: []))) ++ m.body, ?_⟩
    unfold serializeMsg serializeHead methodChars
    rw [hm]
    rfl
  | POST =>
    refine ⟨'P', "OST".data ++ ' ' :: (m.target ++ ' ' :: ("HTTP/1.1".data ++
      '\r' :: '\n' :: (serializeHeaders m.headers ++ '\r' :: '\n' :: []))) ++ m.body, ?_⟩
    unfold serializeMsg serializeHead methodChars
    rw [hm]
    rfl

theorem serializeHead_cons (m : Msg) : ∃ c l, serializeHead m = c :: l := by
  cases hm : m.method with
  | GET =>
    refine ⟨'G', "ET".data ++ ' ' :: (m.target ++ ' ' :: ("HTTP/1.1".data ++
      '\r' :: '\n' :: (serializeHeaders m.headers ++ '\r' :: '\n' :: []))), ?_⟩
    unfold serializeHead methodChars
    rw [hm]
    rfl
  | POST =>
    refine ⟨'P', "OST".data ++ ' ' :: (m.target ++ ' ' :: ("HTTP/1.1".data ++
      '\r' :: '\n' :: (serializeHeaders m.headers ++ '\r' :: '\n' :: []))), ?_⟩
    unfold serializeHead methodChars
    rw [hm]
    rfl

theorem parseBufferGo_ok (msgs : List Msg) :
    ∀ (fuel : Nat) (acc : List Request),
      (∀ x ∈ msgs, WFMsg x) →
      (msgs.map serializeMsg).flatten.length + 1 ≤ fuel →
      parseBufferGo fuel (msgs.map serializeMsg).flatten acc
        = .ok (acc.reverse ++ msgs.map reqOf) := by
  induction msgs with
  | nil =>
    intro fuel acc _ hf
    cases fuel with
    | zero => omega
    | succ f => simp [parseBufferGo]
  | cons m t ih =>
    intro fuel acc hwf hf
    have hflat : ((m :: t).map serializeMsg).flatten
        = serializeMsg m ++ (t.map serializeMsg).flatten := by simp
    rw [hflat] at hf ⊢
    obtain ⟨c, l, hc⟩ := serializeMsg_cons m
    have hlen1 : 1 ≤ (serializeMsg m).length := by rw [hc]; simp
    cases fuel with
    | zero => simp at hf
    | succ f =>
      unfold parseBufferGo
      have hne : (serializeMsg m ++ (t.map serializeMsg).flatten).isEmpty = false := by
        rw [hc]
        simp
      rw [if_neg (by simp [hne])]
      simp only [parse_http_request_rt m _ (hwf m (List.mem_cons_self _ _))]
      rw [ih f (reqOf m :: acc) (fun x hx => hwf x (List.mem_cons_of_mem _ hx))
        (by simp at hf ⊢; omega)]
      simp

theorem parseBufferGo_err (msgs : List Msg) (bad : List Char) (e : String)
    (hbadne : bad.isEmpty = false) (herr : parse_http_request bad = .error e) :
    ∀ (fuel : Nat) (acc : List Request),
      (∀ x ∈ msgs, WFMsg x) →
      ((msgs.map serializeMsg).flatten ++ bad).length + 1 ≤ fuel →
      parseBufferGo fuel ((msgs.map serializeMsg).flatten ++ bad) acc = .error e := by
  induction msgs with
  | nil =>
    intro fuel acc _ hf
    cases fuel with
    | zero => omega
    | succ f =>
      unfold parseBufferGo
      simp only [List.map_nil, List.flatten_nil, List.nil_append]
      rw [if_neg (by simp [hbadne]), herr]
  | cons m t ih =>
    intro fuel acc hwf hf
    have hflat : ((m :: t).map serializeMsg).flatten ++ bad
        = serializeMsg m ++ ((t.map serializeMsg).flatten ++ bad) := by simp
    rw [hflat] at hf ⊢
    obtain ⟨c, l, hc⟩ := serializeMsg_cons m
    have hlen1 : 1 ≤ (serializeMsg m).length := by rw [hc]; simp
    cases fuel with
    | zero => simp at hf
    | succ f =>
      unfold parseBufferGo
      have hne : (serializeMsg m ++ ((t.map serializeMsg).flatten ++ bad)).isEmpty = false := by
        rw [hc]
        simp
      rw [if_neg (by simp [hne])]
      simp only [parse_http_request_rt m _ (hwf m (List.mem_cons_self _ _))]
      exact ih f _ (fun x hx => hwf x (List.mem_cons_of_mem _ hx)) (by simp at hf ⊢; omega)

theorem contentLength_eq_of_none {hs : List (List Char × List Char)}
    (h : ∀ x ∈ hs, trimChars x.1 ≠ "Content-Length".data ∨ parseUsize x.2 = none) :
    ∀ len, hs.foldl (fun l x =>
      if trimChars x.1 = "Content-Length".data then
        (match parseUsize x.2 with
          | some v => v
          | none => l)
      else l) len = len := by
  induction hs with
  | nil => intro len; rfl
  | cons x hs' ih =>
    intro len
    rw [List.foldl_cons]
    have hstep : (if trimChars x.1 = "Content-Length".data then
        (match parseUsize x.2 with
          | some v => v
          | none => len)
      else len) = len := by
      rcases h x (List.mem_cons_self _ _) with hx | hx
      · rw [if_neg hx]
      · rw [hx]
        split <;> rfl
    rw [hstep]
    exact ih (fun x hx => h x (List.mem_cons_of_mem _ hx)) len

def isOkE {ε α : Type} : Except ε α → Bool
  | .ok _ => true
  | .error _ => false

/-- C2 counterexample: the buffer consisting of the single well-formed
message `GET / HTTP/1.1 CRLF CRLF` (valid start line, zero header lines,
blank-line terminator, empty body, no declared `Content-Length`, so body
length 0) does not yield one decoded request: `parse_buffer` fails,
because the header loop never consumes the blank line when no header line
precedes it, and the leftover `CRLF` fails the next start-line parse. -/
theorem parse_buffer_zero_header_fails :
    isOkE (parse_buffer ("GET / HTTP/1.1\r\n\r\n".data)) = false := by
  rfl

/-- C2 (amended): for every buffer formed by concatenating N well-formed
messages, each with a valid start line, AT LEAST ONE header line, the
blank-line terminator and a body of exactly the declared Content-Length,
`parse_buffer` returns Ok with exactly the N decoded requests, in input
order, whose method, target, headers and body equal those of the source
messages, with no leftover bytes unconsumed. -/
theorem parse_buffer_pipelined (msgs : List Msg) (h : ∀ x ∈ msgs, WFMsg x) :
    parse_buffer ((msgs.map serializeMsg).flatten) = .ok (msgs.map reqOf) := by
  unfold parse_buffer
  rw [parseBufferGo_ok msgs _ [] h (by omega)]
  simp

def msgA : Msg :=
  { method := Method.GET, target := "/a".data,
    headers := [("Host".data, "x".data)], body := [] }

def msgB : Msg :=
  { method := Method.POST, target := "/b".data,
    headers := [("Content-Length".data, "2".data)], body := "hi".data }

theorem parse_buffer_pipelined_witness :
    parse_buffer ("GET /a HTTP/1.1\r\nHost:x\r\n\r\nPOST /b HTTP/1.1\r\nContent-Length:2\r\n\r\nhi".data)
      = .ok [reqOf msgA, reqOf msgB] :=
  parse_buffer_pipelined [msgA, msgB] (by decide)

/-- C3: for every buffer of well-formed messages followed by a message
whose declared `Content-Length` exceeds the bytes remaining after its
header block, `parse_buffer` fails the whole call with the "incomplete
request" error; no partial list of decoded requests is returned alongside
(the `Result` carries either the list or the error). -/
theorem parse_buffer_incomplete (msgs : List Msg) (m : Msg) (w : List Char)
    (hws : ∀ x ∈ msgs, WFMsg x) (hm : WFHead m)
    (hlen : w.length < contentLength m.headers) :
    parse_buffer ((msgs.map serializeMsg).flatten ++ (serializeHead m ++ w))
      = .error "incomplete request" := by
  unfold parse_buffer
  obtain ⟨c, l, hc⟩ := serializeHead_cons m
  refine parseBufferGo_err msgs (serializeHead m ++ w) "incomplete request" ?_ ?_ _ _ hws
    (by omega)
  · rw [hc]
    simp
  · rw [parse_http_request_head m w hm, if_neg (by omega)]

def msgC3 : Msg :=
  { method := Method.GET, target := "/x".data,
    headers := [("Content-Length".data, "9000".data)], body := [] }

theorem parse_buffer_incomplete_witness :
    parse_buffer ("GET /x HTTP/1.1\r\nContent-Length:9000\r\n\r\nthis was a body...".data)
      = .error "incomplete request" :=
  parse_buffer_incomplete [] msgC3 "this was a body...".data
    (by intro x hx; exact absurd hx (List.not_mem_nil x)) (by decide) (by decide)

/-- C4: in `parse_http_request` the expected body length is exactly the
fold that updates only at headers named (after trimming) exactly the
case-sensitive string `Content-Length` whose value parses as a usize
(`contentLength`), the parsed body is exactly that many bytes, and when no
such header is present (absent name or unparsable value) the length
defaults to 0, so the message is parsed with an empty body. -/
theorem content_length_framing (m : Msg) (w : List Char) (hm : WFHead m)
    (hw : contentLength m.headers ≤ w.length) :
    parse_http_request (serializeHead m ++ w)
      = .ok (w.drop (contentLength m.headers),
        { method := m.method, uri := m.target, headers := m.headers,
          body := w.take (contentLength m.headers) })
    ∧ ((∀ x ∈ m.headers, trimChars x.1 ≠ "Content-Length".data ∨ parseUsize x.2 = none) →
        contentLength m.headers = 0) := by
  constructor
  · rw [parse_http_request_head m w hm, if_pos hw]
  · intro hnone
    exact contentLength_eq_of_none hnone 0

def msgC4 : Msg :=
  { method := Method.GET, target := "/c".data,
    headers := [("content-length".data, "5".data)], body := [] }

theorem content_length_framing_witness :
    parse_http_request ("GET /c HTTP/1.1\r\ncontent-length:5\r\n\r\nHELLO".data)
      = .ok ("HELLO".data,
        { method := Method.GET, uri := "/c".data,
          headers := [("content-length".data, "5".data)], body := [] })
    ∧ contentLength msgC4.headers = 0 := by
  have h := content_length_framing msgC4 "HELLO".data (by decide) (by decide)
  exact ⟨h.1, h.2 (by decide)⟩

/-- C5: a header line `NAME:VALUE CRLF` (NAME up to the first colon and
free of CR/LF, VALUE up to the CRLF) parses to the pair of NAME and VALUE
each trimmed of surrounding whitespace, consuming exactly the line. -/
theorem header_line_parse (name value rest : List Char)
    (h1 : ':' ∉ name) (h2 : '\r' ∉ name) (h3 : '\n' ∉ name)
    (h4 : '\r' ∉ value) (h5 : '\n' ∉ value) :
    header (name ++ ':' :: (value ++ '\r' :: '\n' :: rest))
      = some (rest, (trimChars name, trimChars value)) :=
  header_rt name value rest h1 h4

theorem header_line_parse_witness :
    header ("User-Agent:Wget\r\n".data)
      = some ([], ("User-Agent".data, "Wget".data)) :=
  header_line_parse "User-Agent".data "Wget".data []
    (by decide) (by decide) (by decide) (by decide) (by decide)

/-- C6 counterexample: in `GET / HTTP/1.1 CRLF CRLF` a CRLF immediately
follows the start line (a message with zero headers), yet the terminating
CRLF is NOT consumed: the parse succeeds with the CRLF still in the
remainder and body framing starts AT the CRLF, not after it (the claim
predicts remainder `[]`). -/
theorem terminator_not_checked_after_start_line :
    parse_http_request ("GET / HTTP/1.1\r\n\r\n".data)
      = .ok ("\r\n".data,
        { method := Method.GET, uri := "/".data, headers := [], body := [] }) := by
  rfl

/-- C6 (amended): the blank-line terminator check is attempted only at the
line boundary after each successfully parsed header line (never
immediately after the start line): whenever CRLF immediately follows a
parsed header line, the header block ends there, the CRLF is consumed, and
body framing begins at the byte after it. -/
theorem terminator_after_header (fuel : Nat) (temp rest : List Char)
    (n v : List Char) (len : Nat) (acc : List (List Char × List Char))
    (hh : header temp = some ('\r' :: '\n' :: rest, (n, v))) :
    parseHeadersGo (fuel + 1) temp len acc
      = (rest,
         (if trimChars n = "Content-Length".data then
            (match parseUsize v with
              | some l => l
              | none => len)
          else len),
         acc ++ [(n, v)]) := by
  unfold parseHeadersGo
  simp only [hh]
  have hend : end_headers ('\r' :: '\n' :: rest) = some rest :=
    tagP_append ('\r' :: '\n' :: []) rest
  simp only [hend]

theorem terminator_after_header_witness :
    parseHeadersGo 4 ("A:b\r\n\r\nXYZ".data) 0 []
      = ("XYZ".data, 0, [("A".data, "b".data)]) :=
  terminator_after_header 3 ("A:b\r\n\r\nXYZ".data) ("XYZ".data)
    ("A".data) ("b".data) 0 [] (by rfl)

/-! ## The chat data model and service (src/messages.rs, src/chat_service.rs) -/

/-- `messages.rs` `Chat`: an id and a pair of participant ids (`u64`,
embedded as `Nat`; the code performs no arithmetic on them). -/
structure Chat where
  id : Nat
  participant_ids : Nat × Nat
deriving DecidableEq, Repr

/-- `messages.rs` `Message`; `Ord` compares by `timestamp` alone. -/
structure Message where
  id : String
  source_user_id : Nat
  destination_user_id : Nat
  timestamp : Nat
  message : String
deriving DecidableEq, Repr

/-- `chat_service.rs` `ChatRoom`: the chat and its `BinaryHeap<Message>`
log, embedded as the list of pushed messages in insertion order (a
max-heap is determined up to ties by its multiset of elements, and every
claim reads the log only through `into_sorted_vec`, modelled below). -/
structure ChatRoom where
  chat : Chat
  log : List Message
deriving DecidableEq, Repr

def ChatRoom.new (chat : Chat) : ChatRoom := { chat := chat, log := [] }

/-- First-match lookup in an association list, modelling `HashMap::get`
(the service only ever inserts fresh keys or overwrites, so first-match on
the cons-insertion list observes exactly the map). -/
def lookupKey {κ ν : Type} [DecidableEq κ] : List (κ × ν) → κ → Option ν
  | [], _ => none
  | kv :: rest, k => if kv.1 = k then some kv.2 else lookupKey rest k

/-- In-place update of the value at a key, modelling `HashMap::get_mut`
followed by mutation. -/
def updateKey {κ ν : Type} [DecidableEq κ] (l : List (κ × ν)) (k : κ) (f : ν → ν) :
    List (κ × ν) :=
  l.map (fun kv => if kv.1 = k then (kv.1, f kv.2) else kv)

/-- `chat_service.rs` `ChatService`: chat rooms keyed by the participant
pair, and `chat_keys` mapping a chat id to its participant pair. -/
structure ChatService where
  chats : List ((Nat × Nat) × ChatRoom)
  chat_keys : List (Nat × (Nat × Nat))
deriving DecidableEq, Repr

def ChatService.default : ChatService := { chats := [], chat_keys := [] }

/-- `ChatService::add_chat`.  The process-wide `USERS` contact directory
(`lazy_static`, loaded from `contacts.json`) is passed as the read-only
map `users`. -/
def ChatService.add_chat (users : Nat → Option (List Nat)) (s : ChatService)
    (chat : Chat) : Except String ChatService :=
  let user_a := chat.participant_ids.1
  let user_b := chat.participant_ids.2
  if (lookupKey s.chats (user_a, user_b)).isSome then
    .error "Chat already exists"
  else
    match users user_a, users user_b with
    | some a, some b =>
      if a.contains user_b && b.contains user_a then
        .ok { chat_keys := (chat.id, (user_a, user_b)) :: s.chat_keys,
              chats := ((user_a, user_b), ChatRoom.new chat) :: s.chats }
      else if ¬ (a.contains user_b = true) then
        .error ("user " ++ toString user_a ++ " does not have user " ++
          toString user_b ++ " in their contact list.")
      else
        .error ("user " ++ toString user_b ++ " does not have user " ++
          toString user_a ++ " in their contact list.")
    | _, _ => .error "unable to create chat"

/-- `ChatService::send_message`: `BinaryHeap::push` appends to the log. -/
def ChatService.send_message (s : ChatService) (chat_id : Nat) (message : Message) :
    Except String ChatService :=
  match lookupKey s.chat_keys chat_id with
  | none => .error ("Unable to find chat with id " ++ toString chat_id)
  | some key =>
    match lookupKey s.chats key with
    | some _ =>
      let chats2 := updateKey s.chats key
        (fun room => { room with log := room.log ++ [message] })
      .ok { s with chats := chats2 }
    | none => .error ("Unable to find chat for " ++ toString key)

/-- Insertion position for the ascending-by-timestamp sort. -/
def insertByTs (m : Message) : List Message → List Message
  | [] => [m]
  | x :: xs => if m.timestamp ≤ x.timestamp then m :: x :: xs else x :: insertByTs m xs

/-- `BinaryHeap::into_sorted_vec` on a heap ordered by the `Message` `Ord`
(timestamp comparison): the elements in ascending timestamp order.  The
relative order of equal timestamps depends on the heap's internal shape in
Rust; every claim observes only the timestamps, which this sort fixes. -/
def intoSortedVec (l : List Message) : List Message := l.foldr insertByTs []

/-- `ChatService::get_messages`. -/
def ChatService.get_messages (s : ChatService) (chat_id : Nat) :
    Except String (List Message) :=
  match lookupKey s.chat_keys chat_id with
  | none => .error "Unable to find key"
  | some key =>
    match lookupKey s.chats key with
    | none => .error "Unable to find chatroom"
    | some chat => .ok (intoSortedVec chat.log)

/-- `ChatService::get_user_chats`. -/
def ChatService.get_user_chats (s : ChatService) (user_id : Nat) : List Chat :=
  (s.chats.filter (fun kv => kv.1.1 == user_id || kv.1.2 == user_id)).map
    (fun kv => kv.2.chat)


/-- The collaborator operations a handler can invoke on the service. -/
inductive ChatOp where
  | addChat (c : Chat)
  | sendMessage (chat_id : Nat) (m : Message)
  | getMessages (chat_id : Nat)
  | getUserChats (user_id : Nat)

/-- One operation against the service: on error the service state is
unchanged (every error path in the Rust code returns before mutating). -/
def applyOp (users : Nat → Option (List Nat)) (s : ChatService) : ChatOp → ChatService
  | ChatOp.addChat c =>
    match ChatService.add_chat users s c with
    | .ok s2 => s2
    | .error _ => s
  | ChatOp.sendMessage chat_id m =>
    match ChatService.send_message s chat_id m with
    | .ok s2 => s2
    | .error _ => s
  | ChatOp.getMessages _ => s
  | ChatOp.getUserChats _ => s

def runOps (users : Nat → Option (List Nat)) (ops : List ChatOp) : ChatService :=
  ops.foldl (applyOp users) ChatService.default

/-- The `chat_keys`/`chats` coherence invariant: every chat id in
`chat_keys` maps to a participant pair that is a key of `chats`. -/
def ChatInv (s : ChatService) : Prop :=
  ∀ id p, lookupKey s.chat_keys id = some p → (lookupKey s.chats p).isSome = true

theorem add_chat_ok_shape {users : Nat → Option (List Nat)} {s s2 : ChatService}
    {c : Chat} (h : ChatService.add_chat users s c = .ok s2) :
    s2 = { chat_keys := (c.id, (c.participant_ids.1, c.participant_ids.2)) :: s.chat_keys,
           chats := ((c.participant_ids.1, c.participant_ids.2), ChatRoom.new c) :: s.chats } := by
  unfold ChatService.add_chat at h
  simp only at h
  split at h
  · exact Except.noConfusion h
  · cases ha : users c.participant_ids.1 with
    | none => rw [ha] at h; exact Except.noConfusion h
    | some a =>
      cases hb : users c.participant_ids.2 with
      | none => rw [ha, hb] at h; exact Except.noConfusion h
      | some b =>
        rw [ha, hb] at h
        simp only at h
        split at h
        · simp only [Except.ok.injEq] at h
          exact h.symm
        · split at h <;> exact Except.noConfusion h

theorem lookupKey_updateKey_isSome {κ ν : Type} [DecidableEq κ]
    (l : List (κ × ν)) (k : κ) (f : ν → ν) (p : κ) :
    (lookupKey (updateKey l k f) p).isSome = (lookupKey l p).isSome := by
  induction l with
  | nil => rfl
  | cons kv rest ih =>
    unfold updateKey at ih ⊢
    simp only [List.map_cons]
    by_cases hk : kv.1 = k
    · subst hk
      by_cases hp : kv.1 = p
      · subst hp
        simp [lookupKey]
      · simp [lookupKey, hp, ih]
    · by_cases hp : kv.1 = p
      · subst hp
        simp [lookupKey, hk, ih]
      · simp [lookupKey, hk, hp, ih]

theorem inv_preserved (users : Nat → Option (List Nat)) (s : ChatService)
    (op : ChatOp) (h : ChatInv s) : ChatInv (applyOp users s op) := by
  cases op with
  | addChat c =>
    cases hout : ChatService.add_chat users s c with
    | error e => simpa only [applyOp, hout] using h
    | ok s2 =>
      have happ : applyOp users s (ChatOp.addChat c) = s2 := by
        simp only [applyOp, hout]
      rw [happ, add_chat_ok_shape hout]
      intro id p hlk
      simp only [lookupKey] at hlk ⊢
      by_cases hid : c.id = id
      · rw [if_pos hid] at hlk
        simp only [Option.some.injEq] at hlk
        rw [if_pos (by rw [hlk])]
        rfl
      · rw [if_neg hid] at hlk
        by_cases hpp : (c.participant_ids.1, c.participant_ids.2) = p
        · rw [if_pos hpp]; rfl
        · rw [if_neg hpp]
          exact h id p hlk
  | sendMessage chat_id m =>
    cases hout : ChatService.send_message s chat_id m with
    | error e => simpa only [applyOp, hout] using h
    | ok s2 =>
      have happ : applyOp users s (ChatOp.sendMessage chat_id m) = s2 := by
        simp only [applyOp, hout]
      rw [happ]
      unfold ChatService.send_message at hout
      cases hlk : lookupKey s.chat_keys chat_id with
      | none => simp only [hlk] at hout; exact Except.noConfusion hout
      | some key =>
        simp only [hlk] at hout
        cases hc : lookupKey s.chats key with
        | none => simp only [hc] at hout; exact Except.noConfusion hout
        | some room =>
          simp only [hc, Except.ok.injEq] at hout
          rw [← hout]
          intro id p hlk2
          rw [lookupKey_updateKey_isSome]
          exact h id p hlk2
  | getMessages chat_id => simpa only [applyOp] using h
  | getUserChats user_id => simpa only [applyOp] using h

theorem inv_runOps_from (users : Nat → Option (List Nat)) (ops : List ChatOp) :
    ∀ s : ChatService, ChatInv s → ChatInv (ops.foldl (applyOp users) s) := by
  induction ops with
  | nil => intro s h; exact h
  | cons op rest ih =>
    intro s h
    exact ih (applyOp users s op) (inv_preserved users s op h)

/-- C10: every sequence of `add_chat`, `send_message`, `get_messages` and
`get_user_chats` operations from the default state preserves the
invariant that every chat id in `chat_keys` maps to a participant pair
that is a key of `chats`; consequently, whenever `send_message` or
`get_messages` finds the chat id in `chat_keys`, the chatroom lookup
succeeds and the operation returns Ok, so the
`Unable to find chat for` / `Unable to find chatroom` error branches are
unreachable. -/
theorem chat_service_invariant (users : Nat → Option (List Nat)) (ops : List ChatOp) :
    ChatInv (runOps users ops)
    ∧ ∀ (chat_id : Nat) (m : Message),
        (lookupKey (runOps users ops).chat_keys chat_id).isSome = true →
        isOkE (ChatService.send_message (runOps users ops) chat_id m) = true
        ∧ isOkE (ChatService.get_messages (runOps users ops) chat_id) = true := by
  have hinv : ChatInv (runOps users ops) :=
    inv_runOps_from users ops ChatService.default
      (fun id p hlk => Option.noConfusion hlk)
  refine ⟨hinv, ?_⟩
  intro chat_id m hfound
  cases hlk : lookupKey (runOps users ops).chat_keys chat_id with
  | none => rw [hlk] at hfound; exact Bool.noConfusion hfound
  | some key =>
    have hsome := hinv chat_id key hlk
    cases hc : lookupKey (runOps users ops).chats key with
    | none => rw [hc] at hsome; exact Bool.noConfusion hsome
    | some room =>
      constructor
      · unfold ChatService.send_message
        simp only [hlk, hc]
        rfl
      · unfold ChatService.get_messages
        simp only [hlk, hc]
        rfl

/-- The pre-loaded read-only contact directory used in concrete runs:
users 1 and 2 list each other. -/
def demoUsers : Nat → Option (List Nat) :=
  fun u => if u = 1 then some [2] else if u = 2 then some [1] else none

def msgW : Message :=
  { id := "m", source_user_id := 1, destination_user_id := 2,
    timestamp := 7, message := "hello" }

theorem chat_service_invariant_witness :
    isOkE (ChatService.send_message
      (runOps demoUsers [ChatOp.addChat { id := 5, participant_ids := (1, 2) }]) 5 msgW) = true
    ∧ isOkE (ChatService.get_messages
      (runOps demoUsers [ChatOp.addChat { id := 5, participant_ids := (1, 2) }]) 5) = true :=
  (chat_service_invariant demoUsers
    [ChatOp.addChat { id := 5, participant_ids := (1, 2) }]).2 5 msgW (by decide)

/-- C8: with both participants present in the read-only contact
directory, `add_chat` (1) fails with "Chat already exists" when called
again after a successful creation of the same chat, (2) fails naming the
missing direction when the first participant does not list the second,
(3) fails naming the missing direction when the second does not list the
first, and (4) succeeds exactly when the chat is new and both directions
are present. -/
theorem add_chat_spec (users : Nat → Option (List Nat)) (s : ChatService)
    (c : Chat) (la lb : List Nat)
    (ha : users c.participant_ids.1 = some la)
    (hb : users c.participant_ids.2 = some lb) :
    (∀ s2, ChatService.add_chat users s c = .ok s2 →
        ChatService.add_chat users s2 c = .error "Chat already exists")
    ∧ ((lookupKey s.chats (c.participant_ids.1, c.participant_ids.2)).isSome = false →
        la.contains c.participant_ids.2 = false →
        ChatService.add_chat users s c
          = .error ("user " ++ toString c.participant_ids.1 ++ " does not have user " ++
              toString c.participant_ids.2 ++ " in their contact list."))
    ∧ ((lookupKey s.chats (c.participant_ids.1, c.participant_ids.2)).isSome = false →
        la.contains c.participant_ids.2 = true →
        lb.contains c.participant_ids.1 = false →
        ChatService.add_chat users s c
          = .error ("user " ++ toString c.participant_ids.2 ++ " does not have user " ++
              toString c.participant_ids.1 ++ " in their contact list."))
    ∧ (isOkE (ChatService.add_chat users s c) = true ↔
        ((lookupKey s.chats (c.participant_ids.1, c.participant_ids.2)).isSome = false
          ∧ la.contains c.participant_ids.2 = true
          ∧ lb.contains c.participant_ids.1 = true)) := by
  refine ⟨?_, ?_, ?_, ?_⟩
  · intro s2 hok
    rw [add_chat_ok_shape hok]
    unfold ChatService.add_chat
    simp [lookupKey]
  · intro hnew hmiss
    unfold ChatService.add_chat
    simp only [hnew, Bool.false_eq_true, if_false, ha, hb, hmiss, Bool.false_and,
      Bool.and_eq_true, false_and, if_neg]
    simp
  · intro hnew hhave hmiss
    unfold ChatService.add_chat
    simp only [hnew, Bool.false_eq_true, if_false, ha, hb, hhave, hmiss]
    simp
  · unfold ChatService.add_chat
    simp only [ha, hb]
    by_cases hnew : (lookupKey s.chats (c.participant_ids.1, c.participant_ids.2)).isSome = true
    · simp [hnew, isOkE]
    · simp only [Bool.not_eq_true] at hnew
      by_cases h1 : c.participant_ids.2 ∈ la
      · by_cases h2 : c.participant_ids.1 ∈ lb
        · simp [hnew, h1, h2, isOkE]
        · simp [hnew, h1, h2, isOkE]
      · simp [hnew, h1, isOkE]

theorem add_chat_spec_witness :
    ChatService.add_chat demoUsers
      { chats := [((1, 2), ChatRoom.new { id := 5, participant_ids := (1, 2) })],
        chat_keys := [(5, (1, 2))] }
      { id := 5, participant_ids := (1, 2) }
      = .error "Chat already exists" :=
  (add_chat_spec demoUsers ChatService.default
    { id := 5, participant_ids := (1, 2) } [2] [1] rfl rfl).1 _ (by rfl)

def mkTsMsg (ts : Nat) : Message :=
  { id := "", source_user_id := 1, destination_user_id := 2,
    timestamp := ts, message := "" }

/-- Ten messages with strictly increasing timestamps 1..10 sent to chat 1. -/
def opsC1 : List ChatOp :=
  ChatOp.addChat { id := 1, participant_ids := (1, 2) } ::
    (List.range 10).map (fun i => ChatOp.sendMessage 1 (mkTsMsg (i + 1)))

/-- C1: after inserting 10 messages with strictly increasing timestamps
1..10, `get_messages` returns the log in ASCENDING timestamp order
(`BinaryHeap::into_sorted_vec`), so the first element carries the MINIMUM
timestamp 1 and timestamps are monotonically non-decreasing — the reverse
of the claimed descending (most recent first) order. -/
theorem get_messages_ascending_eval :
    (ChatService.get_messages (runOps demoUsers opsC1) 1).map
      (fun l => l.map Message.timestamp)
      = .ok [1, 2, 3, 4, 5, 6, 7, 8, 9, 10] := by
  rfl

/-! ## The router (src/router.rs) -/

/-- `http::Response<String>` as the handlers construct it: numeric status,
header pairs, owned body. -/
structure Response where
  status : Nat
  headers : List (String × String)
  body : String
deriving DecidableEq, Repr

def status_code_msg (code : Nat) (msg : String) (content_type : String) : Response :=
  { status := code, headers := [("Content-Type", content_type)], body := msg }

def not_found : Response := status_code_msg 404 "Not found." "text/plain"

abbrev Params := List (List Char × List Char)

/-- The handler capability: mutable service access, path parameters,
optional query string, the decoded request. -/
abbrev HttpHandler := ChatService → Params → Option (List Char) → Request → Response × ChatService

/-- Modelled from the spec: one path-pattern segment of the
`path_tree::PathTree` dependency (not part of this repository's sources).
A segment written as `:name` is a named parameter binding the raw path
segment text; any other segment is a literal matched exactly. -/
def segMatch (pat seg : List Char) : Option Params :=
  match pat with
  | ':' :: name => some [(name, seg)]
  | _ => if pat = seg then some [] else none

/-- Modelled from the spec: segment-wise matching of a whole pattern
against a path, requiring equal segment counts and yielding the bound
name/value pairs. -/
def segsMatch : List (List Char) → List (List Char) → Option Params
  | [], [] => some []
  | p :: ps, s :: ss =>
    match segMatch p s with
    | some bs =>
      match segsMatch ps ss with
      | some rest => some (bs ++ rest)
      | none => none
    | none => none
  | _, _ => none

def matchPat (pat path : List Char) : Option Params :=
  segsMatch (pat.splitOn '/') (path.splitOn '/')

/-- Modelled from the spec: prefer the pattern that is literal at the
earliest segment where two matching patterns differ in kind (exact
segments win over a placeholder at the same depth). -/
def patMoreLiteral : List (List Char) → List (List Char) → Bool
  | [], _ => true
  | _, [] => true
  | p :: ps, q :: qs =>
    match p, q with
    | ':' :: _, ':' :: _ => patMoreLiteral ps qs
    | ':' :: _, _ => false
    | _, _ => patMoreLiteral ps qs

/-- Modelled from the spec: `PathTree::find` — the registered pattern
matching the path (with its parameter bindings), literal segments
preferred over parameter segments, `none` when no pattern matches. -/
def treeFind {α : Type} (tree : List (List Char × α)) (path : List Char) :
    Option (List Char × α × Params) :=
  tree.foldl (fun best entry =>
    match matchPat entry.1 path with
    | none => best
    | some ps =>
      match best with
      | none => some (entry.1, entry.2, ps)
      | some b =>
        if patMoreLiteral (b.1.splitOn '/') (entry.1.splitOn '/') then best
        else some (entry.1, entry.2, ps)) none

/-- `router.rs` `RouterBuilder`: per-method pattern lists plus the owned
service.  `Router::builder` creates a (empty) trie for every supported
method, which is why `trees.get(req.method()).unwrap()` in `route` can
never panic: the parser only produces the methods GET and POST. -/
structure RouterBuilder where
  trees : Method → List (List Char × HttpHandler)
  service : ChatService

structure Router where
  trees : Method → List (List Char × HttpHandler)
  service : ChatService

def Router.builder (service : ChatService) : RouterBuilder :=
  { trees := fun _ => [], service := service }

def RouterBuilder.register (rb : RouterBuilder) (route : List Char) (method : Method)
    (handler : HttpHandler) : RouterBuilder :=
  { rb with trees := fun m =>
      if m = method then rb.trees m ++ [(route, handler)] else rb.trees m }

def RouterBuilder.build (rb : RouterBuilder) : Router :=
  { trees := rb.trees, service := rb.service }

/-- `http::Uri::path`: the request target up to the first `?`. -/
def uriPath (t : List Char) : List Char := t.takeWhile (fun c => c != '?')

/-- `http::Uri::query`: the text after the first `?`, when present. -/
def uriQuery (t : List Char) : Option (List Char) :=
  if (t.dropWhile (fun c => c != '?')).isEmpty then none
  else some ((t.dropWhile (fun c => c != '?')).drop 1)

/-- `Router::route`: look up the method's trie with the target's path;
invoke the matched handler with the service, bound parameters, query and
request, or produce `not_found` when no pattern matches.  (The Rust code
additionally logs non-OK responses; observability only.) -/
def Router.route (r : Router) (req : Request) : Response × Router :=
  match treeFind (r.trees req.method) (uriPath req.uri) with
  | some found =>
    let res := found.2.1 r.service found.2.2 (uriQuery req.uri) req
    (res.1, { r with service := res.2 })
  | none => (not_found, r)

theorem takeWhile_all {p : Char → Bool} {l : List Char}
    (h : ∀ c ∈ l, p c = true) : l.takeWhile p = l := by
  induction l with
  | nil => rfl
  | cons c rest ih =>
    simp [List.takeWhile_cons, h c (List.mem_cons_self c rest),
      ih (fun x hx => h x (List.mem_cons_of_mem _ hx))]

theorem takeWhile_append_stop {p : Char → Bool} {a b : List Char} {c : Char}
    (h : ∀ x ∈ a, p x = true) (hc : p c = false) :
    (a ++ c :: b).takeWhile p = a := by
  induction a with
  | nil => simp [List.takeWhile_cons, hc]
  | cons x rest ih =>
    simp [List.cons_append, List.takeWhile_cons, h x (List.mem_cons_self x rest),
      ih (fun y hy => h y (List.mem_cons_of_mem _ hy))]

/-- C7: for every router and request whose method's trie matches no
registered pattern against the target's path component, `Router::route`
returns the not-found (404) response, regardless of any query string in
the request target.  (The "method has no trie" disjunct of the claim is
vacuous: `Router::builder` creates a trie for each of the supported
methods GET and POST, the only methods a decoded request can carry.) -/
theorem route_not_found (r : Router) (m : Method) (path q : List Char)
    (hq : '?' ∉ path)
    (hfind : treeFind (r.trees m) path = none) :
    ∀ (hs : List (List Char × List Char)) (b : List Char),
      (Router.route r { method := m, uri := path, headers := hs, body := b }).1
        = not_found
      ∧ (Router.route r { method := m, uri := path ++ '?' :: q, headers := hs, body := b }).1
        = not_found := by
  intro hs b
  have hpc : ∀ c ∈ path, (c != '?') = true := by
    intro c hc
    simp only [bne_iff_ne, ne_eq]
    intro he
    rw [he] at hc
    exact hq hc
  constructor
  · unfold Router.route
    have hp : uriPath path = path := takeWhile_all hpc
    simp only [hp, hfind]
  · unfold Router.route
    have hp : uriPath (path ++ '?' :: q) = path :=
      takeWhile_append_stop hpc (by simp)
    simp only [hp, hfind]

def demoRouter : Router :=
  RouterBuilder.build (RouterBuilder.register (Router.builder ChatService.default)
    ("/chats".data) Method.GET
    (fun svc _ _ _ => (status_code_msg 200 "" "text/plain", svc)))

theorem route_not_found_witness :
    (Router.route demoRouter
      { method := Method.GET, uri := "/nope?a=b".data, headers := [], body := [] }).1
      = not_found :=
  (route_not_found demoRouter Method.GET ("/nope".data) ("a=b".data)
    (by decide) (by rfl) [] []).2

/-! ## Token assignment in the event loop (src/server.rs) -/

/-- The token-relevant state of `Server`: the listening-socket token
(`Token(0)`), the `next_token` counter (`u64`, embedded as `Nat`; the code
only ever increments it), and the tokens of the currently registered
connections (the keys of the `connections` map). -/
structure ServerState where
  token : Nat
  next_token : Nat
  connections : List Nat
deriving DecidableEq, Repr

/-- `Server::new`: `token = Token(0)`, `next_token = 1`, no connections. -/
def serverNew : ServerState :=
  { token := 0, next_token := 1, connections := [] }

/-- The readiness events the poll loop reacts to, abstracted: one
successful `accept`, a zero-length read or read error removing a
connection, or a data read (which never touches token state). -/
inductive IoEvent where
  | accept
  | closeConn (t : Nat)
  | readData (t : Nat)

/-- One step of `Server::poll`'s event handling, returning the new state
and the token assigned when the event is an accept:
`Token(next_token)` is handed out and the counter incremented. -/
def serverStep (s : ServerState) : IoEvent → ServerState × Option Nat
  | IoEvent.accept =>
    ({ s with next_token := s.next_token + 1,
              connections := s.next_token :: s.connections }, some s.next_token)
  | IoEvent.closeConn t =>
    ({ s with connections := s.connections.filter (fun x => x != t) }, none)
  | IoEvent.readData _ => (s, none)

/-- Run a sequence of events, collecting every assigned token in order. -/
def runEventsFrom (s : ServerState) : List IoEvent → ServerState × List Nat
  | [] => (s, [])
  | e :: rest =>
    let step := serverStep s e
    let tail := runEventsFrom step.1 rest
    (tail.1, step.2.toList ++ tail.2)

def runEvents (evs : List IoEvent) : ServerState × List Nat :=
  runEventsFrom serverNew evs

theorem runEventsFrom_spec (evs : List IoEvent) :
    ∀ s : ServerState,
      (runEventsFrom s evs).1.token = s.token
      ∧ (∀ t ∈ (runEventsFrom s evs).2, s.next_token ≤ t)
      ∧ List.Pairwise (· < ·) (runEventsFrom s evs).2 := by
  induction evs with
  | nil => intro s; exact ⟨rfl, fun t ht => absurd ht (List.not_mem_nil t), List.Pairwise.nil⟩
  | cons e rest ih =>
    intro s
    cases e with
    | accept =>
      obtain ⟨h1, h2, h3⟩ := ih (serverStep s IoEvent.accept).1
      refine ⟨h1, ?_, ?_⟩
      · intro t ht
        simp only [runEventsFrom, serverStep, Option.toList_some, List.cons_append,
          List.nil_append, List.mem_cons] at ht
        rcases ht with rfl | ht
        · exact Nat.le_refl _
        · exact Nat.le_trans (Nat.le_succ _) (h2 t ht)
      · simp only [runEventsFrom, serverStep, Option.toList_some, List.cons_append,
          List.nil_append]
        exact List.Pairwise.cons
          (fun t ht => Nat.lt_of_lt_of_le (Nat.lt_succ_self _) (h2 t ht)) h3
    | closeConn t0 =>
      obtain ⟨h1, h2, h3⟩ := ih (serverStep s (IoEvent.closeConn t0)).1
      exact ⟨h1, h2, h3⟩
    | readData t0 =>
      obtain ⟨h1, h2, h3⟩ := ih s
      exact ⟨h1, h2, h3⟩

/-- C9: token 0 is permanently reserved for the listening socket (the
`token` field stays 0 over any event sequence), and accepted connections
receive tokens from the monotonically increasing counter starting at 1:
over any execution every assigned token is nonzero (at least 1) and the
assigned tokens are strictly increasing in assignment order, so no token
ever equals the token of any earlier connection, even after that earlier
connection has been removed. -/
theorem token_assignment (evs : List IoEvent) :
    (runEvents evs).1.token = 0
    ∧ (∀ t ∈ (runEvents evs).2, 1 ≤ t)
    ∧ List.Pairwise (· < ·) (runEvents evs).2 := by
  obtain ⟨h1, h2, h3⟩ := runEventsFrom_spec evs serverNew
  exact ⟨h1, h2, h3⟩
